import Mathlib

/-!
Shallow embedding of `src/upload_script.js` (the bulk company uploader).

The script reads a JSON array of company records, builds a single Firestore
write batch with one `batch.set(docRef, company)` per record — the document
reference is `db.collection('targetCompanies').doc(company.companyName)` —
and commits the batch once inside a try/catch, logging success with
`companies.length` or logging the caught error.

External-collaborator semantics embedded here, from the Firestore client and
the google.firestore.v1 Commit RPC contract:
- `doc(path)` validates its argument locally (no network) and throws when the
  document path is missing or the empty string;
- `batch.set` stages a full-document overwrite, purely local to the batch;
- `batch.commit()` is one network call; the store applies every staged write
  atomically and in staging order, or rejects the whole batch applying none.
Whether the store accepts the commit is a parameter (`commitOk`) of the run.
-/

/-- One record of `companies.json`: the identity field `companyName`
(`none` models a missing field) plus the remaining payload fields. -/
structure Company where
  companyName : Option String
  fields : List (String × String)
deriving DecidableEq, Repr

/-- One staged write of the batch: target collection, document id, and the
full document payload (a `set`, i.e. complete overwrite). -/
structure Write where
  coll : String
  docId : String
  payload : Company
deriving DecidableEq, Repr

/-- The document store: a map from (collection, document id) to document. -/
abbrev Store := String → String → Option Company

/-- Errors surfaced by the Firestore client inside `uploadCompanies`. -/
inductive JsError
  | invalidDocPath
  | commitRejected
deriving DecidableEq, Repr

/-- Console output events of the script. -/
inductive LogEvent
  | starting
  | success (count : Nat)
  | errorLog (e : JsError)
deriving DecidableEq, Repr

/-- One `batch.commit()` network call, with the writes it carried and
whether the store accepted it. -/
structure CommitCall where
  writes : List Write
  accepted : Bool
deriving DecidableEq, Repr

/-- Observable outcome of one run of `uploadCompanies`: the final store
state, the console log, the network calls issued, and the promise rejection
of the async function when an exception escapes it. -/
structure RunOutcome where
  store : Store
  logs : List LogEvent
  network : List CommitCall
  rejected : Option JsError

/-- `db.collection('targetCompanies').doc(company.companyName)`: the client
validates the document path locally and throws `invalidDocPath` when
`companyName` is missing or empty; otherwise the id is the name verbatim. -/
def docIdOf (c : Company) : Except JsError String :=
  match c.companyName with
  | none => .error .invalidDocPath
  | some n => if n = "" then .error .invalidDocPath else .ok n

/-- `companies.forEach(company => { const docRef = ...; batch.set(docRef, company); })`:
stage one write per record, in input order, into the collection
`targetCompanies`; the first invalid document path throws out of the loop
(writes already staged are discarded with the batch, which is never
committed, so they are not returned here). -/
def stageAll : List Company → Except JsError (List Write)
  | [] => .ok []
  | c :: cs =>
    match docIdOf c with
    | .error e => .error e
    | .ok id =>
      match stageAll cs with
      | .error e => .error e
      | .ok ws => .ok ({ coll := "targetCompanies", docId := id, payload := c } :: ws)

/-- Apply one staged `set`: full overwrite of the addressed document. -/
def applyWrite (s : Store) (w : Write) : Store :=
  fun coll id => if coll = w.coll ∧ id = w.docId then some w.payload else s coll id

/-- A successful `batch.commit()`: the store applies every staged write
atomically, in staging order. -/
def commitWrites (s : Store) (ws : List Write) : Store :=
  ws.foldl applyWrite s

/-- The async function `uploadCompanies`, parameterised by the input records,
whether the store accepts the commit, and the initial store state.
The `forEach` staging loop sits outside the try/catch, so a staging throw
rejects the promise with no network call; the commit is inside the
try/catch, so its rejection is caught and logged and the promise resolves. -/
def uploadCompanies (companies : List Company) (commitOk : Bool) (s0 : Store) :
    RunOutcome :=
  match stageAll companies with
  | .error e =>
      { store := s0
        logs := [.starting]
        network := []
        rejected := some e }
  | .ok ws =>
      if commitOk then
        { store := commitWrites s0 ws
          logs := [.starting, .success companies.length]
          network := [{ writes := ws, accepted := true }]
          rejected := none }
      else
        { store := s0
          logs := [.starting, .errorLog .commitRejected]
          network := [{ writes := ws, accepted := false }]
          rejected := none }

/-- Network-visible mutation events of a run: commits the store accepted
(a rejected atomic commit mutates nothing). -/
def RunOutcome.mutationEvents (r : RunOutcome) : Nat :=
  (r.network.filter (·.accepted)).length

/-- The success count reported on the console, when the success line was
printed. -/
def RunOutcome.reported (r : RunOutcome) : Option Nat :=
  r.logs.findSome? fun e =>
    match e with
    | .success n => some n
    | _ => none

/-- Process exit status: Node exits non-zero when the script promise
rejects unhandled, and zero when it resolves. -/
def RunOutcome.exitCode (r : RunOutcome) : Nat :=
  if r.rejected.isSome then 1 else 0

/-- A record the script cannot derive a document key from: `companyName`
missing or empty. -/
def malformed (c : Company) : Prop :=
  c.companyName = none ∨ c.companyName = some ""

instance (c : Company) : Decidable (malformed c) := by
  unfold malformed; infer_instance

/-- The identities (document keys) the input record set targets. -/
def keysOf (cs : List Company) : List String :=
  cs.filterMap fun c => (docIdOf c).toOption

/-- The last record of the list carrying the given identity, if any. -/
def lastWith : List Company → String → Option Company
  | [], _ => none
  | c :: cs, k =>
    match lastWith cs k with
    | some c2 => some c2
    | none => if c.companyName = some k then some c else none

/-- The payload of the last staged write addressing the given document. -/
def lastSetOf : List Write → String → String → Option Company
  | [], _, _ => none
  | w :: ws, coll, id =>
    match lastSetOf ws coll id with
    | some c => some c
    | none => if coll = w.coll ∧ id = w.docId then some w.payload else none

/-! ## Basic lemmas about staging and committing -/

/-- A record is malformed exactly when `doc()` throws on it. -/
theorem docIdOf_error_iff (c : Company) :
    docIdOf c = .error .invalidDocPath ↔ malformed c := by
  unfold docIdOf malformed
  cases h : c.companyName with
  | none => simp
  | some n =>
    by_cases hn : n = "" <;> simp [hn]

/-- A well-formed record yields its name as the document id. -/
theorem docIdOf_ok_iff (c : Company) (k : String) :
    docIdOf c = .ok k ↔ c.companyName = some k ∧ k ≠ "" := by
  unfold docIdOf
  cases h : c.companyName with
  | none => simp
  | some n =>
    by_cases hn : n = "" <;> simp [hn] <;> intro h2 <;> simp [← h2, hn]

/-- Evaluating a committed batch at one document: the last staged write to
that document wins, and documents never staged keep their prior value. -/
theorem commitWrites_apply (ws : List Write) (s : Store) (coll id : String) :
    commitWrites s ws coll id =
      match lastSetOf ws coll id with
      | some c => some c
      | none => s coll id := by
  induction ws generalizing s with
  | nil => rfl
  | cons w ws ih =>
    show commitWrites (applyWrite s w) ws coll id = _
    rw [ih]
    cases h : lastSetOf ws coll id with
    | some c => simp [lastSetOf, h]
    | none =>
      simp only [lastSetOf, h, applyWrite]
      by_cases hc : coll = w.coll ∧ id = w.docId <;> simp [hc]

/-- Structure of a successfully staged batch: one write per record in input
order, each targeting `targetCompanies` under the record's own name and
carrying the whole record as payload. -/
theorem stageAll_ok_spec {cs : List Company} {ws : List Write}
    (h : stageAll cs = .ok ws) :
    ws.map Write.payload = cs ∧
    ∀ w ∈ ws, w.coll = "targetCompanies" ∧ docIdOf w.payload = .ok w.docId := by
  induction cs generalizing ws with
  | nil =>
    simp only [stageAll, Except.ok.injEq] at h
    subst h; simp
  | cons c cs ih =>
    simp only [stageAll] at h
    cases hd : docIdOf c with
    | error e => rw [hd] at h; exact absurd h (by simp)
    | ok id =>
      rw [hd] at h
      cases hs : stageAll cs with
      | error e => rw [hs] at h; exact absurd h (by simp)
      | ok ws2 =>
        rw [hs] at h
        simp only [Except.ok.injEq] at h
        subst h
        obtain ⟨h1, h2⟩ := ih hs
        refine ⟨by simp [h1], ?_⟩
        intro w hw
        rcases List.mem_cons.mp hw with hw | hw
        · subst hw; exact ⟨rfl, hd⟩
        · exact h2 w hw

/-- `doc()` has only one failure mode: the invalid-path throw. -/
theorem docIdOf_error_eq {c : Company} {e : JsError}
    (h : docIdOf c = .error e) : e = .invalidDocPath := by
  unfold docIdOf at h
  cases hc : c.companyName with
  | none => rw [hc] at h; exact (Except.error.injEq _ _).mp h.symm
  | some n =>
    rw [hc] at h
    by_cases hn : n = "" <;> simp [hn] at h
    exact h.symm

/-- One malformed record anywhere in the input makes the staging loop throw
the invalid-path error. -/
theorem stageAll_error_of_malformed {cs : List Company}
    (h : ∃ c ∈ cs, malformed c) : stageAll cs = .error .invalidDocPath := by
  induction cs with
  | nil => simp at h
  | cons c cs ih =>
    rcases h with ⟨c2, hmem, hmal⟩
    rcases List.mem_cons.mp hmem with rfl | hmem2
    · simp only [stageAll, (docIdOf_error_iff c2).mpr hmal]
    · cases hd : docIdOf c with
      | error e => simp only [stageAll, hd, docIdOf_error_eq hd]
      | ok id => simp only [stageAll, hd, ih ⟨c2, hmem2, hmal⟩]

/-- Membership in the targeted keys, spelled via `docIdOf`. -/
theorem mem_keysOf_iff {cs : List Company} {k : String} :
    k ∈ keysOf cs ↔ ∃ c ∈ cs, docIdOf c = .ok k := by
  unfold keysOf
  rw [List.mem_filterMap]
  constructor
  · rintro ⟨c, hc, hk⟩
    refine ⟨c, hc, ?_⟩
    cases hd : docIdOf c <;> rw [hd] at hk <;> simp [Except.toOption] at hk
    rw [hk]
  · rintro ⟨c, hc, hk⟩
    exact ⟨c, hc, by rw [hk]; rfl⟩

/-- Every write of a successfully staged batch targets a key of the input. -/
theorem stageAll_mem_keys {cs : List Company} {ws : List Write} {w : Write}
    (h : stageAll cs = .ok ws) (hw : w ∈ ws) : w.docId ∈ keysOf cs := by
  obtain ⟨h1, h2⟩ := stageAll_ok_spec h
  refine mem_keysOf_iff.mpr ⟨w.payload, ?_, (h2 w hw).2⟩
  rw [← h1]
  exact List.mem_map_of_mem Write.payload hw

/-- A batch with no write addressing a document leaves it alone. -/
theorem lastSetOf_eq_none {ws : List Write} {coll id : String}
    (h : ∀ w ∈ ws, ¬(coll = w.coll ∧ id = w.docId)) :
    lastSetOf ws coll id = none := by
  induction ws with
  | nil => rfl
  | cons w ws ih =>
    simp only [lastSetOf, ih fun w2 hw2 => h w2 (List.mem_cons_of_mem w hw2)]
    simp [h w (List.mem_cons_self w ws)]

/-- On a successfully staged batch, the last write addressing a
`targetCompanies` document is the last input record with that identity. -/
theorem stageAll_lastSetOf {cs : List Company} {ws : List Write}
    (h : stageAll cs = .ok ws) (k : String) :
    lastSetOf ws "targetCompanies" k = lastWith cs k := by
  induction cs generalizing ws with
  | nil =>
    simp only [stageAll, Except.ok.injEq] at h
    subst h; rfl
  | cons c cs ih =>
    simp only [stageAll] at h
    cases hd : docIdOf c with
    | error e => rw [hd] at h; exact absurd h (by simp)
    | ok id =>
      rw [hd] at h
      cases hs : stageAll cs with
      | error e => rw [hs] at h; exact absurd h (by simp)
      | ok ws2 =>
        rw [hs] at h
        simp only [Except.ok.injEq] at h
        subst h
        obtain ⟨hname, hne⟩ := (docIdOf_ok_iff c id).mp hd
        simp only [lastSetOf, lastWith, ih hs]
        cases hlw : lastWith cs k with
        | some c2 => rfl
        | none =>
          by_cases hk : k = id
          · subst hk; simp [hname]
          · have : ¬(c.companyName = some k) := by
              rw [hname]; simpa using fun h2 => hk h2.symm
            simp [hk, this]

/-- The last record with an identity, spelled as the last element of the
input filtered to that identity. -/
theorem lastWith_eq_getLast (cs : List Company) (k : String) :
    lastWith cs k = (cs.filter fun c => decide (c.companyName = some k)).getLast? := by
  induction cs with
  | nil => rfl
  | cons c cs ih =>
    rw [List.filter_cons]
    by_cases hc : c.companyName = some k
    · rw [if_pos (by simpa using hc), List.getLast?_cons, ← ih]
      cases hlw : lastWith cs k with
      | some c2 => simp only [lastWith, hlw, Option.getD_some]
      | none => simp only [lastWith, hlw, Option.getD_none, if_pos hc]
    · rw [if_neg (by simpa using hc), ← ih]
      cases hlw : lastWith cs k with
      | some c2 => simp only [lastWith, hlw]
      | none => simp only [lastWith, hlw, if_neg hc]

/-- What `lastWith` returns is a record of the list carrying the key. -/
theorem lastWith_spec {cs : List Company} {k : String} {c : Company}
    (h : lastWith cs k = some c) : c ∈ cs ∧ c.companyName = some k := by
  induction cs with
  | nil => exact absurd h (by simp [lastWith])
  | cons c2 cs ih =>
    simp only [lastWith] at h
    cases hlw : lastWith cs k with
    | some c3 =>
      rw [hlw] at h
      obtain rfl : c3 = c := Option.some.inj h
      obtain ⟨h1, h2⟩ := ih hlw
      exact ⟨List.mem_cons_of_mem c2 h1, h2⟩
    | none =>
      rw [hlw] at h
      by_cases hc : c2.companyName = some k
      · rw [if_pos hc] at h
        obtain rfl : c2 = c := Option.some.inj h
        exact ⟨List.mem_cons_self _ _, hc⟩
      · rw [if_neg hc] at h
        exact absurd h (by simp)

/-- A targeted key always has a last record carrying it. -/
theorem lastWith_isSome_of_mem_keys {cs : List Company} {k : String}
    (h : k ∈ keysOf cs) : ∃ c, lastWith cs k = some c ∧ c.companyName = some k := by
  rcases mem_keysOf_iff.mp h with ⟨c, hmem, hok⟩
  have hname := ((docIdOf_ok_iff c k).mp hok).1
  clear h hok
  induction cs with
  | nil => exact absurd hmem (by simp)
  | cons c2 cs ih =>
    cases hlw : lastWith cs k with
    | some c3 =>
      refine ⟨c3, by simp only [lastWith, hlw], (lastWith_spec hlw).2⟩
    | none =>
      rcases List.mem_cons.mp hmem with rfl | hmem2
      · exact ⟨c, by simp only [lastWith, hlw]; rw [if_pos hname], hname⟩
      · rcases ih hmem2 with ⟨c4, h4, h5⟩
        rw [hlw] at h4
        exact absurd h4 (by simp)

/-- Final-store characterisation of a successful run: each `targetCompanies`
document holds the last input record with its key, and every other document
keeps its prior value. -/
theorem upload_store_char (cs : List Company) (s0 : Store) (ws : List Write)
    (h : stageAll cs = .ok ws) (k : String) :
    (uploadCompanies cs true s0).store "targetCompanies" k =
      match lastWith cs k with
      | some c => some c
      | none => s0 "targetCompanies" k := by
  simp only [uploadCompanies, h, if_true]
  rw [commitWrites_apply, stageAll_lastSetOf h]

/-! ## Concrete sample records used by the witnesses -/

def acme : Company := { companyName := some "Acme", fields := [("role", "SWE")] }

def globex : Company := { companyName := some "Globex", fields := [("role", "PM")] }

def acme2 : Company := { companyName := some "Acme", fields := [("role", "CTO")] }

def noName : Company := { companyName := none, fields := [("role", "QA")] }

def emptyStore : Store := fun _ _ => none

/-! ## The claims -/

/-- Claim C1: a record set containing a record whose `companyName` is
missing or empty makes the run fail with the invalid-document-path throw
(the `MalformedRecord` failure) and abort before any network call: no
commit is issued, no partial batch is sent, and the store is untouched,
even if every other record is valid. -/
theorem upload_malformed_aborts (cs : List Company) (b : Bool) (s0 : Store)
    (coll id : String) (h : ∃ c ∈ cs, malformed c) :
    (uploadCompanies cs b s0).rejected = some .invalidDocPath
    ∧ (uploadCompanies cs b s0).network = []
    ∧ (uploadCompanies cs b s0).store coll id = s0 coll id := by
  have hs := stageAll_error_of_malformed h
  simp [uploadCompanies, hs]

theorem upload_malformed_aborts_witness :
    (uploadCompanies [acme, noName] true emptyStore).rejected = some .invalidDocPath
    ∧ (uploadCompanies [acme, noName] true emptyStore).network = []
    ∧ (uploadCompanies [acme, noName] true emptyStore).store "targetCompanies" "Acme"
        = emptyStore "targetCompanies" "Acme" :=
  upload_malformed_aborts [acme, noName] true emptyStore "targetCompanies" "Acme"
    ⟨noName, by decide, by decide⟩

/-- Claim C2: if the batch commit fails, no document of the target store is
created or modified — the store after a failed run equals the store before,
at every collection and key. -/
theorem upload_commit_fail_preserves_store (cs : List Company) (s0 : Store)
    (coll id : String) :
    (uploadCompanies cs false s0).store coll id = s0 coll id := by
  cases hs : stageAll cs <;> simp [uploadCompanies, hs]

/-- Claim C4: a successful run reports exactly the length of the input
record set — `companies.length`, not the number of unique identities. -/
theorem upload_reports_input_length (cs : List Company) (s0 : Store)
    (ws : List Write) (h : stageAll cs = .ok ws) :
    (uploadCompanies cs true s0).reported = some cs.length := by
  simp [uploadCompanies, h, RunOutcome.reported]

theorem upload_reports_input_length_witness :
    (uploadCompanies [acme, acme2] true emptyStore).reported = some 2 :=
  upload_reports_input_length [acme, acme2] emptyStore
    [{ coll := "targetCompanies", docId := "Acme", payload := acme },
     { coll := "targetCompanies", docId := "Acme", payload := acme2 }] rfl

/-- Claim C5: re-running the upload with an unchanged record set leaves the
store exactly as after one run, because every staged write is a `set`
(full-document overwrite at the same derived key), not an additive merge. -/
theorem upload_idempotent (cs : List Company) (b : Bool) (s0 : Store)
    (coll id : String) :
    (uploadCompanies cs b ((uploadCompanies cs b s0).store)).store coll id
      = (uploadCompanies cs b s0).store coll id := by
  cases hs : stageAll cs with
  | error e => simp [uploadCompanies, hs]
  | ok ws =>
    cases b with
    | false => simp [uploadCompanies, hs]
    | true =>
      simp only [uploadCompanies, hs, if_true]
      have h1 := commitWrites_apply ws s0 coll id
      have h2 := commitWrites_apply ws (commitWrites s0 ws) coll id
      cases hl : lastSetOf ws coll id <;> rw [hl] at h1 h2 <;> simp [h1, h2]

/-- Claim C6: on the empty record set the run resolves, reports count 0 on
the success path, and mutates nothing in the store (the commit it issues
carries no writes). -/
theorem upload_empty_trivial (b : Bool) (s0 : Store) (coll id : String) :
    (uploadCompanies [] b s0).rejected = none
    ∧ (uploadCompanies [] true s0).reported = some 0
    ∧ (uploadCompanies [] b s0).store coll id = s0 coll id := by
  cases b <;> simp [uploadCompanies, stageAll, commitWrites, RunOutcome.reported]

/-- Claim C8: when the commit rejects, the catch block swallows the error:
the run logs it, the promise resolves normally (nothing is rethrown), and
the process exit status is 0, identical to a successful run's. -/
theorem upload_commit_error_caught (cs : List Company) (s0 : Store)
    (ws : List Write) (h : stageAll cs = .ok ws) :
    (uploadCompanies cs false s0).rejected = none
    ∧ LogEvent.errorLog .commitRejected ∈ (uploadCompanies cs false s0).logs
    ∧ (uploadCompanies cs false s0).exitCode = 0
    ∧ (uploadCompanies cs false s0).exitCode = (uploadCompanies cs true s0).exitCode := by
  simp [uploadCompanies, h, RunOutcome.exitCode]

theorem upload_commit_error_caught_witness :
    (uploadCompanies [acme, globex] false emptyStore).rejected = none
    ∧ LogEvent.errorLog .commitRejected ∈ (uploadCompanies [acme, globex] false emptyStore).logs
    ∧ (uploadCompanies [acme, globex] false emptyStore).exitCode = 0
    ∧ (uploadCompanies [acme, globex] false emptyStore).exitCode
        = (uploadCompanies [acme, globex] true emptyStore).exitCode :=
  upload_commit_error_caught [acme, globex] emptyStore
    [{ coll := "targetCompanies", docId := "Acme", payload := acme },
     { coll := "targetCompanies", docId := "Globex", payload := globex }] rfl

def acmeWrite : Write := { coll := "targetCompanies", docId := "Acme", payload := acme }

def globexWrite : Write := { coll := "targetCompanies", docId := "Globex", payload := globex }

def acme2Write : Write := { coll := "targetCompanies", docId := "Acme", payload := acme2 }

/-- Claim C3: after a successful run, every targeted key holds a document —
so the count of documents present for the targeted keys equals the count of
unique identities of the input — and each such document equals the
corresponding input record (the last one carrying that identity). -/
theorem upload_success_complete (cs : List Company) (s0 : Store) (ws : List Write)
    (k : String) (h : stageAll cs = .ok ws) (hk : k ∈ keysOf cs) :
    ((keysOf cs).dedup.filter fun k2 =>
        ((uploadCompanies cs true s0).store "targetCompanies" k2).isSome).length
      = (keysOf cs).dedup.length
    ∧ (uploadCompanies cs true s0).store "targetCompanies" k = lastWith cs k := by
  constructor
  · have hall : ∀ k2 ∈ (keysOf cs).dedup,
        ((uploadCompanies cs true s0).store "targetCompanies" k2).isSome = true := by
      intro k2 hk2
      rcases lastWith_isSome_of_mem_keys (List.mem_dedup.mp hk2) with ⟨c, hc, h2⟩
      rw [upload_store_char cs s0 ws h k2, hc]
      rfl
    rw [List.filter_eq_self.mpr hall]
  · rcases lastWith_isSome_of_mem_keys hk with ⟨c, hc, h2⟩
    rw [upload_store_char cs s0 ws h k, hc]

theorem upload_success_complete_witness :
    ((keysOf [acme, globex]).dedup.filter fun k2 =>
        ((uploadCompanies [acme, globex] true emptyStore).store "targetCompanies" k2).isSome).length
      = (keysOf [acme, globex]).dedup.length
    ∧ (uploadCompanies [acme, globex] true emptyStore).store "targetCompanies" "Acme"
        = lastWith [acme, globex] "Acme" :=
  upload_success_complete [acme, globex] emptyStore [acmeWrite, globexWrite]
    "Acme" rfl (by decide)

/-- Claim C7: no document outside the input identities (or outside the
`targetCompanies` collection) is created, modified or deleted by a run, and
the run's network-visible mutation events number exactly one when it
succeeds and zero when it fails. -/
theorem upload_frame_single_mutation (cs : List Company) (b : Bool) (s0 : Store)
    (coll id : String) (h : coll ≠ "targetCompanies" ∨ id ∉ keysOf cs) :
    (uploadCompanies cs b s0).store coll id = s0 coll id
    ∧ (uploadCompanies cs b s0).mutationEvents
        = (if (uploadCompanies cs b s0).reported.isSome then 1 else 0) := by
  cases hs : stageAll cs with
  | error e =>
    simp [uploadCompanies, hs, RunOutcome.mutationEvents, RunOutcome.reported]
  | ok ws =>
    have hnone : lastSetOf ws coll id = none := by
      apply lastSetOf_eq_none
      intro w hw hcontr
      obtain ⟨hcoll, hid⟩ := hcontr
      obtain ⟨_, hspec⟩ := stageAll_ok_spec hs
      rcases h with h | h
      · exact h (hcoll.trans (hspec w hw).1)
      · exact h (by rw [hid]; exact stageAll_mem_keys hs hw)
    cases b with
    | false =>
      simp [uploadCompanies, hs, RunOutcome.mutationEvents, RunOutcome.reported]
    | true =>
      refine ⟨?_, ?_⟩
      · simp only [uploadCompanies, hs, if_true]
        rw [commitWrites_apply, hnone]
      · simp [uploadCompanies, hs, RunOutcome.mutationEvents, RunOutcome.reported]

theorem upload_frame_single_mutation_witness :
    (uploadCompanies [acme, globex] true emptyStore).store "targetCompanies" "Initech"
      = emptyStore "targetCompanies" "Initech"
    ∧ (uploadCompanies [acme, globex] true emptyStore).mutationEvents
        = (if (uploadCompanies [acme, globex] true emptyStore).reported.isSome then 1 else 0) :=
  upload_frame_single_mutation [acme, globex] true emptyStore "targetCompanies" "Initech"
    (Or.inr (by decide))

/-- Claim C9: the batch writes each record verbatim — the staged writes map
to exactly the input records — into the fixed collection `targetCompanies`;
each write's payload carries its own document key in its `companyName`
field, and after a successful commit the document stored under the key is
that input record itself. -/
theorem upload_stores_whole_record (cs : List Company) (s0 : Store)
    (ws : List Write) (w : Write) (h : stageAll cs = .ok ws) (hw : w ∈ ws) :
    ws.map Write.payload = cs
    ∧ w.coll = "targetCompanies"
    ∧ w.payload.companyName = some w.docId
    ∧ (uploadCompanies cs true s0).store "targetCompanies" w.docId
        = lastWith cs w.docId := by
  obtain ⟨h1, h2⟩ := stageAll_ok_spec h
  refine ⟨h1, (h2 w hw).1, ((docIdOf_ok_iff _ _).mp (h2 w hw).2).1, ?_⟩
  rcases lastWith_isSome_of_mem_keys (stageAll_mem_keys h hw) with ⟨c, hc, h3⟩
  rw [upload_store_char cs s0 ws h w.docId, hc]

theorem upload_stores_whole_record_witness :
    [acmeWrite, globexWrite].map Write.payload = [acme, globex]
    ∧ acmeWrite.coll = "targetCompanies"
    ∧ acmeWrite.payload.companyName = some acmeWrite.docId
    ∧ (uploadCompanies [acme, globex] true emptyStore).store "targetCompanies" acmeWrite.docId
        = lastWith [acme, globex] acmeWrite.docId :=
  upload_stores_whole_record [acme, globex] emptyStore [acmeWrite, globexWrite]
    acmeWrite rfl (by decide)

/-- Claim C10: when several input records share one identity, the document
finally stored under that key is the last such record in input order: the
writes are staged in input order and the commit applies them in staging
order, so the last write wins. -/
theorem upload_duplicate_last_wins (cs : List Company) (s0 : Store) (ws : List Write)
    (k : String) (h : stageAll cs = .ok ws)
    (hdup : 2 ≤ (cs.filter fun c => decide (c.companyName = some k)).length) :
    (uploadCompanies cs true s0).store "targetCompanies" k
      = (cs.filter fun c => decide (c.companyName = some k)).getLast? := by
  rw [← lastWith_eq_getLast]
  obtain ⟨c, hc⟩ : ∃ c, lastWith cs k = some c := by
    rw [lastWith_eq_getLast]
    cases hfl : cs.filter (fun c => decide (c.companyName = some k)) with
    | nil => rw [hfl] at hdup; exact absurd hdup (by decide)
    | cons a l => exact ⟨l.getLast?.getD a, by rw [List.getLast?_cons]⟩
  rw [upload_store_char cs s0 ws h k, hc]

theorem upload_duplicate_last_wins_witness :
    (uploadCompanies [acme, acme2] true emptyStore).store "targetCompanies" "Acme"
      = ([acme, acme2].filter fun c => decide (c.companyName = some "Acme")).getLast? :=
  upload_duplicate_last_wins [acme, acme2] emptyStore [acmeWrite, acme2Write]
    "Acme" rfl (by decide)
